import Mathlib

/-
Verification of the text-search core of the chinese-find extension.

The embedding models the TypeScript sources shallowly:
- a JavaScript string is a list of UTF-16 code units (`JSString := List Nat`);
- `Array.from(s)` (code-point iteration, grouping surrogate pairs) is `codePoints`;
- the asynchronous variant converter `converters.s` is a pure function
  `JSString → JSString`, `none` when the converter is unavailable;
- `getNormalizedTextAndMap`, `collectMatches` and `performSearch` follow
  src/entrypoints/content/dom-search.ts;
- the session state machine of `runSearch` follows
  src/entrypoints/content/panel-controller.ts, split at its single `await`
  point into `runSearchStart` (synchronous prefix) and `runSearchComplete`
  (continuation applied when `performSearch` resolves).

Search loops that the source writes as `while` loops are given explicit fuel;
a result of `none` models a loop that would not have terminated within the
fuel, and termination theorems show the canonical fuel always suffices.
-/

namespace ChineseFind

/-- A JavaScript string, modelled as its list of UTF-16 code units. -/
abbrev JSString := List Nat

/-- A half-open span of offsets, as produced by `range.setStart`/`range.setEnd`. -/
abbrev Span := Int × Int

/-- Check for a UTF-16 high (leading) surrogate code unit. -/
def isHighSurrogate (u : Nat) : Bool := 0xD800 ≤ u && u ≤ 0xDBFF

/-- Check for a UTF-16 low (trailing) surrogate code unit. -/
def isLowSurrogate (u : Nat) : Bool := 0xDC00 ≤ u && u ≤ 0xDFFF

/-- Code-point iteration of a JavaScript string, as performed by
`Array.from(originalText)` in `getNormalizedTextAndMap`: a well-formed
surrogate pair is one character of two code units, anything else one
character of one code unit. -/
def codePoints : JSString → List JSString
  | [] => []
  | u :: v :: rest =>
    if isHighSurrogate u && isLowSurrogate v then
      [u, v] :: codePoints rest
    else
      [u] :: codePoints (v :: rest)
  | [u] => [[u]]

/-- ASCII model of `String.prototype.toLowerCase`, applied code-unit-wise. -/
def toLower (s : JSString) : JSString :=
  s.map (fun u => if 65 ≤ u && u ≤ 90 then u + 32 else u)

/-- Whitespace recognised by `String.prototype.trim`. -/
def isJsWhitespace (u : Nat) : Bool :=
  u == 9 || u == 10 || u == 11 || u == 12 || u == 13 || u == 32 ||
  u == 160 || u == 0x2028 || u == 0x2029 || u == 0xFEFF

/-- Model of `String.prototype.trim`. -/
def trim (s : JSString) : JSString :=
  ((s.dropWhile isJsWhitespace).reverse.dropWhile isJsWhitespace).reverse

/-- The identity source map `[0, 1, ..., len-1]`, as built by
`[...new Array(originalText.length).keys()]` in `getNormalizedTextAndMap`. -/
def identMap (s : JSString) : List Int :=
  (List.range s.length).map (fun i => Int.ofNat i)

/-- Result record of `getNormalizedTextAndMap`. -/
structure NormResult where
  normalizedText : JSString
  sourceMap : List Int
deriving DecidableEq, Repr

/-- Model of the inner write loop of `getNormalizedTextAndMap`:
`for (let i = 0; i < cnt; i++) if (start + i < m.length) m[start + i] = v`. -/
def writeRange : List Int → Nat → Nat → Int → List Int
  | [], _, _, _ => []
  | x :: xs, start + 1, cnt, v => x :: writeRange xs start cnt v
  | x :: xs, 0, 0, _ => x :: xs
  | _ :: xs, 0, cnt + 1, v => v :: writeRange xs 0 cnt v

/-- Model of the per-character loop of `getNormalizedTextAndMap`: for each
original character, its conversion's code units are mapped back to the
character's starting code-unit offset in the original string. -/
def buildMapAux (c : JSString → JSString) :
    List JSString → Nat → Nat → List Int → List Int
  | [], _, _, m => m
  | ch :: rest, origIdx, normIdx, m =>
    buildMapAux c rest (origIdx + ch.length) (normIdx + (c ch).length)
      (writeRange m normIdx (c ch).length origIdx)

/-- Model of `getNormalizedTextAndMap` (dom-search.ts, lines 29-60). The
converter argument is `converters.s` at call time: `none` models a missing
converter, `some c` models `convert` as the pure function `c`. -/
def getNormalizedTextAndMap (conv : Option (JSString → JSString))
    (originalText : JSString) : NormResult :=
  match conv with
  | none => ⟨originalText, identMap originalText⟩
  | some c =>
    let normalizedText := c originalText
    ⟨normalizedText,
      buildMapAux c (codePoints originalText) 0 0
        (List.replicate normalizedText.length (-1))⟩

/-- Closed form of the source map produced by `buildMapAux` when the
per-character conversions exactly tile the whole-string conversion: one
block of the character's starting offset per converted code unit. -/
def mapSpec (c : JSString → JSString) : List JSString → Nat → List Int
  | [], _ => []
  | ch :: rest, origIdx =>
    List.replicate (c ch).length (origIdx : Int) ++
      mapSpec c rest (origIdx + ch.length)

/-- Test whether `pat` occurs in `s` starting at code-unit offset `i`. -/
def matchesAt (s pat : JSString) (i : Nat) : Bool :=
  (s.drop i).take pat.length == pat

/-- Model of `String.prototype.indexOf(pat, start)`: the smallest offset
`i ≥ start` where `pat` occurs, `-1` when there is none (with JavaScript's
clamping behaviour for the empty pattern). -/
def jsIndexOfFrom (s pat : JSString) (start : Nat) : Int :=
  match (List.range (s.length + 1)).find?
      (fun i => decide (start ≤ i) && matchesAt s pat i) with
  | some i => (i : Int)
  | none => if pat.isEmpty then (s.length : Int) else -1

/-- Abstract JavaScript regular-expression object: `execFrom text lastIndex`
models a call to `regex.exec(text)` when the regex's `lastIndex` property
holds `lastIndex`, returning the match's index and matched string. -/
structure RegexEngine where
  execFrom : JSString → Nat → Option (Nat × JSString)

/-- Model of the regex scan loop of `collectMatches` (dom-search.ts, lines
82-95), with explicit `lastIndex` state: after a successful `exec` the
engine's `lastIndex` is `i + m.length`; a zero-length match is skipped by
advancing `lastIndex` by one (the source's `if (regex.lastIndex ===
match.index) regex.lastIndex++`). The loop carries fuel; `none` models a
scan that does not finish within the fuel. -/
def regexLoop (eng : RegexEngine) (text : JSString) :
    Nat → Nat → List Span → Option (List Span)
  | fuel, lastIndex, acc =>
    match eng.execFrom text lastIndex with
    | none => some acc.reverse
    | some (i, m) =>
      match fuel with
      | 0 => none
      | fuel' + 1 =>
        if m.isEmpty then
          let li := i + m.length
          let li' := if li == i then li + 1 else li
          regexLoop eng text fuel' li' acc
        else
          regexLoop eng text fuel' (i + m.length)
            (((i : Int), ((i + m.length : Nat) : Int)) :: acc)

/-- Strategy 1 of `collectMatches`: `new RegExp(keyword, flags)` either
throws (`none`, caught and logged, yielding the matches collected so far,
namely none) or yields an engine driven by `regexLoop`. -/
def regexStrategy (compiled : Option RegexEngine) (text : JSString) :
    Option (List Span) :=
  match compiled with
  | none => some []
  | some eng => regexLoop eng text (text.length + 1) 0 []

/-- Model of the exact-literal scan loop of `collectMatches` (dom-search.ts,
lines 106-119): repeated `indexOf`, advancing past each match's full length. -/
def exactLoop (keyword text : JSString) (matchCase : Bool) :
    Nat → Nat → List Span → Option (List Span)
  | fuel, startIndex, acc =>
    if startIndex < text.length then
      let idx :=
        if matchCase then jsIndexOfFrom text keyword startIndex
        else jsIndexOfFrom (toLower text) (toLower keyword) startIndex
      if idx = -1 then some acc.reverse
      else
        match fuel with
        | 0 => none
        | fuel' + 1 =>
          exactLoop keyword text matchCase fuel' (idx.toNat + keyword.length)
            ((idx, idx + (keyword.length : Int)) :: acc)
    else some acc.reverse

/-- Strategy 2 of `collectMatches`: exact literal search. -/
def exactStrategy (keyword text : JSString) (matchCase : Bool) :
    Option (List Span) :=
  exactLoop keyword text matchCase (text.length + 1) 0 []

/-- Model of the normalized-search loop of `collectMatches` (dom-search.ts,
lines 139-163): literal search in the normalized text, offsets translated
through the source map; the match length in normalized indices uses the
keyword's character count (`Array.from(normalizedKeyword).length`). -/
def normLoop (originalText normalizedText : JSString) (sourceMap : List Int)
    (normalizedKeyword : JSString) :
    Nat → Nat → List Span → Option (List Span)
  | fuel, startIndex, acc =>
    if startIndex < normalizedText.length then
      let idx := jsIndexOfFrom normalizedText normalizedKeyword startIndex
      if idx = -1 then some acc.reverse
      else
        match fuel with
        | 0 => none
        | fuel' + 1 =>
          let index := idx.toNat
          let originalStartIndex := sourceMap.getD index 0
          let matchEndIndexInNormalized :=
            index + (codePoints normalizedKeyword).length
          let originalEndIndex :=
            if sourceMap.length ≤ matchEndIndexInNormalized then
              (originalText.length : Int)
            else sourceMap.getD matchEndIndexInNormalized 0
          normLoop originalText normalizedText sourceMap normalizedKeyword
            fuel' (index + normalizedKeyword.length)
            ((originalStartIndex, originalEndIndex) :: acc)
    else some acc.reverse

/-- Strategy 3 of `collectMatches` (dom-search.ts, lines 123-164): the
converter argument is `converters.s` after `ensureConverters()` resolved,
already in mode "one2one"; `none` models a converter that is still
unavailable. -/
def normalizedStrategy (conv : Option (JSString → JSString))
    (keyword text : JSString) (matchCase : Bool) : Option (List Span) :=
  match conv with
  | none => some []
  | some c =>
    let normalizedKeyword := c (if matchCase then keyword else toLower keyword)
    if normalizedKeyword.isEmpty then some []
    else
      let r := getNormalizedTextAndMap (some c)
        (if matchCase then text else toLower text)
      normLoop text r.normalizedText r.sourceMap normalizedKeyword
        (r.normalizedText.length + 1) 0 []

/-- Options record of the search (dom-search.ts, lines 15-20). -/
structure SearchOptions where
  matchCase : Bool
  wholeWord : Bool
  useRegex : Bool
  exactMatch : Bool
deriving DecidableEq, Repr

/-- External capabilities used by `collectMatches`: `compile keyword
matchCase` is `new RegExp(keyword, matchCase ? "g" : "gi")`, `none` when the
pattern is malformed and the constructor throws; `conv` is `converters.s`
after `ensureConverters()` resolved. -/
structure SearchEnv where
  compile : JSString → Bool → Option RegexEngine
  conv : Option (JSString → JSString)

/-- Model of `collectMatches` (dom-search.ts, lines 69-165), for one text
node whose `textContent` is `text`. -/
def collectMatches (env : SearchEnv) (keyword text : JSString)
    (options : SearchOptions) : Option (List Span) :=
  if text.isEmpty then some []
  else if options.useRegex then
    regexStrategy (env.compile keyword options.matchCase) text
  else if options.exactMatch then
    exactStrategy keyword text options.matchCase
  else
    normalizedStrategy env.conv keyword text options.matchCase

/-- A match produced by `performSearch`: the index of the walked text node
in the document together with the range's start and end offsets within it
(the data `Range.setStart`/`Range.setEnd` record). -/
abbrev MatchRange := Nat × Span

/-- A text node of the page as seen by the tree walker of `performSearch`:
its `textContent`, whether its parent element lies inside the tool's own UI
root (`#chinese-find-root`), and the number of client rectangles
(`getClientRects().length`) the DOM reports for a range with the given
offsets inside it. -/
structure TextNode where
  text : JSString
  inOwnUI : Bool
  rectCount : Span → Nat

/-- Client-rectangle count of a match, `r.getClientRects().length`. -/
def rangeRectCount (doc : List TextNode) (m : MatchRange) : Nat :=
  match doc[m.1]? with
  | some nd => nd.rectCount m.2
  | none => 0

/-- Model of `performSearch` (dom-search.ts, lines 174-211): trims the
keyword, walks the document's text nodes in order, skipping the tool's own
UI subtree and whitespace-only nodes, collects matches per node in document
order, and keeps only matches with at least one client rectangle. -/
def performSearch (env : SearchEnv) (doc : List TextNode) (keyword : JSString)
    (options : SearchOptions) : Option (List MatchRange) :=
  let trimmedKeyword := trim keyword
  if trimmedKeyword.isEmpty then some []
  else
    let nodesToSearch := doc.enum.filter
      (fun p => !p.2.inOwnUI && !(trim p.2.text).isEmpty)
    match nodesToSearch.mapM
        (fun p => (collectMatches env trimmedKeyword p.2.text options).map
          (fun spans => spans.map (fun sp => (p.1, sp)))) with
    | none => none
    | some perNode =>
      some (perNode.flatten.filter (fun m => decide (0 < rangeRectCount doc m)))

/-- Session state owned by the panel controller (panel-controller.ts,
lines 76-78): the current match set, the current index (−1 = none) and the
monotonic generation counter. -/
structure Session where
  matchList : List MatchRange
  currentIndex : Int
  searchGeneration : Nat
deriving DecidableEq, Repr

/-- Model of `Array.prototype.findIndex` with a running offset: index of
the first element satisfying the predicate, −1 when there is none. -/
def jsFindIndexAux (pred : MatchRange → Bool) : List MatchRange → Nat → Int
  | [], _ => -1
  | x :: xs, k => if pred x then (k : Int) else jsFindIndexAux pred xs (k + 1)

/-- Model of `Array.prototype.findIndex`. -/
def jsFindIndex (pred : MatchRange → Bool) (l : List MatchRange) : Int :=
  jsFindIndexAux pred l 0

/-- Synchronous prefix of `runSearch` (panel-controller.ts, lines 243-274),
up to its `await performSearch(...)`: the current range is saved, the
highlight state is cleared (the `clearAllHighlights` callback synchronously
sets `matches = []` and `currentIndex = -1`), a whitespace-only keyword
returns early, and otherwise the generation counter is incremented and
captured. The second component is what the asynchronous continuation
closes over — the captured generation and the saved range — or `none` when
no search is issued. -/
def runSearchStart (st : Session) (keyword : JSString) :
    Session × Option (Nat × Option MatchRange) :=
  let oldCurrentRange :=
    if 0 ≤ st.currentIndex ∧ st.currentIndex < (st.matchList.length : Int) then
      st.matchList[st.currentIndex.toNat]?
    else none
  let cleared : Session := { st with matchList := [], currentIndex := -1 }
  if (trim keyword).isEmpty then (cleared, none)
  else
    ({ cleared with searchGeneration := cleared.searchGeneration + 1 },
      some (cleared.searchGeneration + 1, oldCurrentRange))

/-- Continuation of `runSearch` (panel-controller.ts, lines 277-307),
applied when `performSearch` resolves with `newMatches`: results are
discarded when the captured generation is stale; otherwise the new match
set is committed and the current index resolved — for automatic
re-searches the saved range's position in the new set when it still exists
and 0 otherwise, for manual searches `navigate(0)`, i.e. 0; the index is
left alone when the new set is empty. -/
def runSearchComplete (st : Session) (generation : Nat) (isAutomatic : Bool)
    (oldCurrentRange : Option MatchRange) (newMatches : List MatchRange) :
    Session :=
  if generation ≠ st.searchGeneration then st
  else
    let st1 := { st with matchList := newMatches }
    if 0 < newMatches.length then
      if isAutomatic then
        let newIndex : Int :=
          match oldCurrentRange with
          | none => -1
          | some r => jsFindIndex (fun nr => nr == r) newMatches
        { st1 with currentIndex := if newIndex ≠ -1 then newIndex else 0 }
      else
        { st1 with currentIndex := 0 }
    else st1

/-- Regex engine behaving like the pattern `a*` on text without `a`: a
zero-length match at every position up to the end of the text. -/
def execStar (t : JSString) (l : Nat) : Option (Nat × JSString) :=
  if l ≤ t.length then some (l, []) else none

/-- Engine wrapper for `execStar`. -/
def engStar : RegexEngine := ⟨execStar⟩

/-- Regex compiler that always fails (every pattern malformed). -/
def compileNone : JSString → Bool → Option RegexEngine := fun _ _ => none

/-- Regex compiler that always yields `engStar`. -/
def compileStar : JSString → Bool → Option RegexEngine := fun _ _ => some engStar

/-- Environment with a failing regex compiler and no converter. -/
def envNone : SearchEnv := ⟨compileNone, none⟩

/-- Environment whose compiler yields `engStar` and with no converter. -/
def envStar : SearchEnv := ⟨compileStar, none⟩

/-- Options selecting the regex strategy. -/
def optsRegex : SearchOptions := ⟨false, false, true, false⟩

/-- Options selecting the exact-literal strategy. -/
def optsExact : SearchOptions := ⟨false, false, false, true⟩

/-- A two-node document whose first node reports no client rectangles and
whose second reports one. -/
def docTwoNodes : List TextNode :=
  [⟨[97], false, fun _ => 0⟩, ⟨[97], false, fun _ => 1⟩]

/-- A session holding one committed match at index 0. -/
def sessOne : Session := ⟨[(0, 0, 1)], 0, 0⟩

/-- The empty idle session. -/
def sessEmpty : Session := ⟨[], -1, 0⟩

theorem codePoints_flatten : ∀ s : JSString, (codePoints s).flatten = s
  | [] => rfl
  | [_] => rfl
  | u :: v :: rest => by
    by_cases h : isHighSurrogate u && isLowSurrogate v
    · have ih := codePoints_flatten rest
      simp [codePoints, h, ih]
    · have ih := codePoints_flatten (v :: rest)
      simp [codePoints, h, ih]

theorem codePoints_ne_nil : ∀ s : JSString, ∀ ch ∈ codePoints s, ch ≠ []
  | [] => by simp [codePoints]
  | [u] => by simp [codePoints]
  | u :: v :: rest => by
    by_cases h : isHighSurrogate u && isLowSurrogate v
    · have ih := codePoints_ne_nil rest
      simp only [codePoints, h, if_true, List.mem_cons]
      rintro ch (rfl | hm)
      · simp
      · exact ih ch hm
    · have ih := codePoints_ne_nil (v :: rest)
      simp only [codePoints, h, if_false, List.mem_cons, Bool.false_eq_true]
      rintro ch (rfl | hm)
      · simp
      · exact ih ch hm

theorem writeRange_length :
    ∀ (m : List Int) (start cnt : Nat) (v : Int),
      (writeRange m start cnt v).length = m.length
  | [], _, _, _ => rfl
  | x :: xs, start + 1, cnt, v => by
    simp [writeRange, writeRange_length xs start cnt v]
  | x :: xs, 0, 0, _ => rfl
  | x :: xs, 0, cnt + 1, v => by
    simp [writeRange, writeRange_length xs 0 cnt v]

theorem writeRange_eq :
    ∀ (m : List Int) (start cnt : Nat) (v : Int),
      start + cnt ≤ m.length →
      writeRange m start cnt v =
        m.take start ++ List.replicate cnt v ++ m.drop (start + cnt)
  | [], start, cnt, v => by
    intro h
    simp only [List.length_nil] at h
    have hs : start = 0 := by omega
    have hc : cnt = 0 := by omega
    subst hs; subst hc; rfl
  | x :: xs, start + 1, cnt, v => by
    intro h
    simp only [List.length_cons] at h
    have ih := writeRange_eq xs start cnt v (by omega)
    simp [writeRange, ih, List.take_succ_cons, Nat.succ_add]
  | x :: xs, 0, 0, v => by
    intro _; simp [writeRange]
  | x :: xs, 0, cnt + 1, v => by
    intro h
    have ih := writeRange_eq xs 0 cnt v (by simpa using h)
    simp [writeRange, ih, List.replicate_succ]

theorem buildMapAux_length (c : JSString → JSString) :
    ∀ (chars : List JSString) (origIdx normIdx : Nat) (m : List Int),
      (buildMapAux c chars origIdx normIdx m).length = m.length
  | [], _, _, _ => rfl
  | ch :: rest, origIdx, normIdx, m => by
    simp [buildMapAux,
      buildMapAux_length c rest (origIdx + ch.length) (normIdx + (c ch).length)
        (writeRange m normIdx (c ch).length origIdx),
      writeRange_length]

theorem buildMapAux_eq (c : JSString → JSString) :
    ∀ (chars : List JSString) (origIdx normIdx : Nat) (m : List Int),
      m.length = normIdx + ((chars.map c).flatten).length →
      buildMapAux c chars origIdx normIdx m =
        m.take normIdx ++ mapSpec c chars origIdx
  | [], origIdx, normIdx, m => by
    intro h
    simp only [List.map_nil, List.flatten_nil, List.length_nil, Nat.add_zero] at h
    simp [buildMapAux, mapSpec, List.take_of_length_le (le_of_eq h)]
  | ch :: rest, origIdx, normIdx, m => by
    intro h
    simp only [List.map_cons, List.flatten_cons, List.length_append] at h
    have hin : normIdx + (c ch).length ≤ m.length := by omega
    have hw := writeRange_eq m normIdx (c ch).length origIdx hin
    have hwlen : (writeRange m normIdx (c ch).length origIdx).length = m.length :=
      writeRange_length m normIdx (c ch).length origIdx
    have ih := buildMapAux_eq c rest (origIdx + ch.length)
      (normIdx + (c ch).length) (writeRange m normIdx (c ch).length origIdx)
      (by rw [hwlen]; omega)
    have htake : (writeRange m normIdx (c ch).length origIdx).take
        (normIdx + (c ch).length) =
        m.take normIdx ++ List.replicate (c ch).length (origIdx : Int) := by
      rw [hw]
      have h1 : (m.take normIdx).length = normIdx :=
        List.length_take_of_le (by omega)
      exact List.take_left'
        (by rw [List.length_append, h1, List.length_replicate])
    rw [buildMapAux, ih, htake, mapSpec, List.append_assoc]

theorem mapSpec_lower (c : JSString → JSString) :
    ∀ (chars : List JSString) (k : Nat), ∀ v ∈ mapSpec c chars k, (k : Int) ≤ v
  | [], k => by simp [mapSpec]
  | ch :: rest, k => by
    intro v hv
    simp only [mapSpec, List.mem_append, List.mem_replicate] at hv
    rcases hv with ⟨-, rfl⟩ | hv
    · exact le_refl _
    · have := mapSpec_lower c rest (k + ch.length) v hv
      omega

theorem mapSpec_upper (c : JSString → JSString) :
    ∀ (chars : List JSString) (k : Nat), (∀ ch ∈ chars, ch ≠ []) →
      ∀ v ∈ mapSpec c chars k, v < (k : Int) + chars.flatten.length
  | [], k => by simp [mapSpec]
  | ch :: rest, k => by
    intro hne v hv
    have hch : ch ≠ [] := hne ch (by simp)
    have hlen : 1 ≤ ch.length := by
      cases ch with
      | nil => exact absurd rfl hch
      | cons a t => simp
    simp only [mapSpec, List.mem_append, List.mem_replicate] at hv
    simp only [List.flatten_cons, List.length_append]
    rcases hv with ⟨-, rfl⟩ | hv
    · push_cast; omega
    · have := mapSpec_upper c rest (k + ch.length)
        (fun x hx => hne x (by simp [hx])) v hv
      push_cast at this ⊢
      omega

theorem mapSpec_pairwise (c : JSString → JSString) :
    ∀ (chars : List JSString) (k : Nat),
      (mapSpec c chars k).Pairwise (· ≤ ·)
  | [], k => by simp [mapSpec]
  | ch :: rest, k => by
    rw [mapSpec, List.pairwise_append]
    refine ⟨?_, mapSpec_pairwise c rest (k + ch.length), ?_⟩
    · rw [List.pairwise_replicate]
      right; exact le_refl _
    · intro a ha b hb
      have ha' := List.eq_of_mem_replicate ha
      subst ha'
      have := mapSpec_lower c rest (k + ch.length) b hb
      omega

theorem identMap_length (s : JSString) : (identMap s).length = s.length := by
  rw [identMap, List.length_map, List.length_range]

theorem identMap_mem (s : JSString) :
    ∀ v ∈ identMap s, 0 ≤ v ∧ v < (s.length : Int) := by
  intro v hv
  rw [identMap, List.mem_map] at hv
  obtain ⟨i, hi, rfl⟩ := hv
  rw [List.mem_range] at hi
  exact ⟨Int.ofNat_nonneg i, Int.ofNat_lt.mpr hi⟩

theorem identMap_pairwise (s : JSString) : (identMap s).Pairwise (· ≤ ·) := by
  rw [identMap, List.pairwise_map]
  exact (List.pairwise_le_range s.length).imp (fun h => Int.ofNat_le.mpr h)

theorem getNormalizedTextAndMap_some (c : JSString → JSString) (s : JSString)
    (hstable : c s = ((codePoints s).map c).flatten) :
    (getNormalizedTextAndMap (some c) s).sourceMap = mapSpec c (codePoints s) 0 := by
  simp only [getNormalizedTextAndMap]
  rw [buildMapAux_eq c (codePoints s) 0 0 (List.replicate (c s).length (-1))
    (by simp [hstable])]
  simp

/-- Claim C1: for every original string `s` and a converter whose whole-string
conversion agrees with the concatenation of its per-code-point conversions
(the spec's "stable mapping"; trivially satisfied when no converter is
installed), the source map built by `getNormalizedTextAndMap` has the same
length as the normalized string, every entry is a valid UTF-16 code-unit
index into `s`, and the entries are monotonically non-decreasing. -/
theorem sourceMap_length_valid_monotone (conv : Option (JSString → JSString))
    (s : JSString)
    (hstable : ∀ c, conv = some c → c s = ((codePoints s).map c).flatten) :
    (getNormalizedTextAndMap conv s).sourceMap.length
        = (getNormalizedTextAndMap conv s).normalizedText.length ∧
    (∀ v ∈ (getNormalizedTextAndMap conv s).sourceMap,
        0 ≤ v ∧ v < (s.length : Int)) ∧
    (getNormalizedTextAndMap conv s).sourceMap.Pairwise (· ≤ ·) := by
  cases conv with
  | none =>
    refine ⟨?_, identMap_mem s, identMap_pairwise s⟩
    simp [getNormalizedTextAndMap, identMap_length]
  | some c =>
    have hc := hstable c rfl
    have hmap := getNormalizedTextAndMap_some c s hc
    refine ⟨?_, ?_, ?_⟩
    · simp [getNormalizedTextAndMap, buildMapAux_length]
    · rw [hmap]
      intro v hv
      refine ⟨by simpa using mapSpec_lower c (codePoints s) 0 v hv, ?_⟩
      have := mapSpec_upper c (codePoints s) 0 (codePoints_ne_nil s) v hv
      rwa [codePoints_flatten, Int.ofNat_zero, Int.zero_add] at this
    · rw [hmap]
      exact mapSpec_pairwise c (codePoints s) 0

/-- Witness for C1 at the identity converter and the string "Hi". -/
theorem sourceMap_length_valid_monotone_witness :
    (getNormalizedTextAndMap (some (fun x => x)) [72, 105]).sourceMap.length
        = (getNormalizedTextAndMap (some (fun x => x)) [72, 105]).normalizedText.length ∧
    (∀ v ∈ (getNormalizedTextAndMap (some (fun x => x)) [72, 105]).sourceMap,
        0 ≤ v ∧ v < (([72, 105] : JSString).length : Int)) ∧
    (getNormalizedTextAndMap (some (fun x => x)) [72, 105]).sourceMap.Pairwise (· ≤ ·) :=
  sourceMap_length_valid_monotone (some (fun x => x)) [72, 105]
    (by intro c hc; injection hc with h; subst h; decide)

theorem codePoints_of_noHigh :
    ∀ s : JSString, (∀ u ∈ s, isHighSurrogate u = false) →
      codePoints s = s.map (fun u => [u])
  | [] => by intro _; rfl
  | [u] => by intro _; rfl
  | u :: v :: rest => by
    intro h
    have hu : isHighSurrogate u = false := h u (by simp)
    have ih := codePoints_of_noHigh (v :: rest) (fun x hx => h x (by simp [hx]))
    simp [codePoints, hu, ih]

theorem mapSpec_id_singletons :
    ∀ (l : List Nat) (k : Nat),
      mapSpec (fun x => x) (l.map (fun u => [u])) k =
        (List.range l.length).map (fun i => Int.ofNat (k + i))
  | [], k => by simp [mapSpec]
  | u :: rest, k => by
    have ih := mapSpec_id_singletons rest (k + 1)
    have hcomp : ((fun i => Int.ofNat (k + 1 + i)) : Nat → Int)
        = (fun i => Int.ofNat (k + i)) ∘ Nat.succ := by
      funext i
      show Int.ofNat (k + 1 + i) = Int.ofNat (k + (i + 1))
      congr 1
      omega
    rw [List.map_cons, List.length_cons, List.range_succ_eq_map, List.map_cons,
      List.map_map, ← hcomp, ← ih]
    show List.replicate 1 ((k : Nat) : Int) ++
        mapSpec (fun x => x) (rest.map (fun u => [u])) (k + 1)
      = Int.ofNat (k + 0) :: mapSpec (fun x => x) (rest.map (fun u => [u])) (k + 1)
    rfl

/-- Counterexample to claim C2: for the identity converter and the input
consisting of the single surrogate-pair character U+1D11E (code units
0xD834 0xDD1E), `getNormalizedTextAndMap` returns the source map `[0, 0]`,
not the identity map `[0, 1]`: both code units of an astral character map
back to the character's starting offset. -/
theorem identity_converter_surrogate_counterexample :
    (getNormalizedTextAndMap (some (fun x => x)) [0xD834, 0xDD1E]).sourceMap
        = [0, 0] ∧
    (getNormalizedTextAndMap (some (fun x => x)) [0xD834, 0xDD1E]).sourceMap
        ≠ identMap [0xD834, 0xDD1E] := by
  constructor
  · decide
  · decide

/-- Claim C2 as amended: when every code unit of `s` is outside the high
surrogate range (so every character is a single code unit), the identity
converter yields `s` itself with the identity map `[0, 1, ..., len-1]`; and
with no converter available the input is returned unchanged with the
identity map, for the same string, unconditionally. -/
theorem identity_converter_identity_map_bmp (s : JSString)
    (hbmp : ∀ u ∈ s, isHighSurrogate u = false) :
    getNormalizedTextAndMap (some (fun x => x)) s = ⟨s, identMap s⟩ ∧
    getNormalizedTextAndMap none s = ⟨s, identMap s⟩ := by
  refine ⟨?_, rfl⟩
  have hstable : (fun x => x) s = ((codePoints s).map (fun x => x)).flatten := by
    have hid : (codePoints s).map (fun x => x) = codePoints s := by
      simp
    rw [hid, codePoints_flatten]
  have hmap := getNormalizedTextAndMap_some (fun x => x) s hstable
  rw [codePoints_of_noHigh s hbmp, mapSpec_id_singletons s 0] at hmap
  have hfun : ((fun i => Int.ofNat (0 + i)) : Nat → Int)
      = fun i => Int.ofNat i := by
    funext i
    congr 1
    omega
  rw [hfun] at hmap
  have hrepr : getNormalizedTextAndMap (some (fun x => x)) s =
      ⟨s, (getNormalizedTextAndMap (some (fun x => x)) s).sourceMap⟩ := rfl
  rw [hrepr, hmap]
  rfl

/-- Witness for C2's amended theorem at the ASCII string "hi". -/
theorem identity_converter_identity_map_bmp_witness :
    getNormalizedTextAndMap (some (fun x => x)) [104, 105]
        = ⟨[104, 105], identMap [104, 105]⟩ ∧
    getNormalizedTextAndMap none [104, 105]
        = ⟨[104, 105], identMap [104, 105]⟩ :=
  identity_converter_identity_map_bmp [104, 105] (by decide)

/-- Claim C7: a keyword that is not a valid regular-expression pattern (the
`RegExp` constructor throws, modelled by `compile` returning `none`) makes
the regex strategy yield zero matches for the node; the error is caught at
log level and never propagated, so `collectMatches` returns an empty match
list as if zero matches existed. -/
theorem malformed_regex_yields_no_matches (env : SearchEnv)
    (keyword text : JSString) (options : SearchOptions)
    (hre : options.useRegex = true)
    (hc : env.compile keyword options.matchCase = none) :
    collectMatches env keyword text options = some [] := by
  unfold collectMatches
  by_cases ht : text.isEmpty
  · simp [ht]
  · simp [ht, hre, regexStrategy, hc]

/-- Witness for C7: the malformed pattern "[" over the text "a". -/
theorem malformed_regex_yields_no_matches_witness :
    collectMatches envNone [91] [97] optsRegex = some [] :=
  malformed_regex_yields_no_matches envNone [91] [97] optsRegex rfl rfl

/-- Claim C8: when the variant converter is unavailable even after
`ensureConverters()` resolved (modelled by `conv = none`), the normalized
strategy yields zero matches rather than throwing, and the normalization
step degrades to identity behaviour: `getNormalizedTextAndMap` without a
converter returns the input with the identity map. -/
theorem converter_unavailable_degrades (env : SearchEnv)
    (keyword text : JSString) (options : SearchOptions)
    (h1 : options.useRegex = false) (h2 : options.exactMatch = false)
    (hc : env.conv = none) :
    collectMatches env keyword text options = some [] ∧
    getNormalizedTextAndMap none text = ⟨text, identMap text⟩ := by
  refine ⟨?_, rfl⟩
  unfold collectMatches
  by_cases ht : text.isEmpty
  · simp [ht]
  · simp [ht, h1, h2, normalizedStrategy, hc]

/-- Witness for C8: keyword "a", text "b", default options, no converter. -/
theorem converter_unavailable_degrades_witness :
    collectMatches envNone [97] [98] ⟨false, false, false, false⟩ = some [] ∧
    getNormalizedTextAndMap none [98] = ⟨[98], identMap [98]⟩ :=
  converter_unavailable_degrades envNone [97] [98] ⟨false, false, false, false⟩
    rfl rfl rfl

/-- Claim C5: for every keyword, non-empty node text and options,
`collectMatches` executes exactly one of the three strategies, chosen by
priority regex > exact > normalized; and since `useRegex` and `exactMatch`
are checked before any normalization occurs, the result of the regex and
exact strategies is independent of the converter. -/
theorem strategy_priority (compile : JSString → Bool → Option RegexEngine)
    (c1 c2 : Option (JSString → JSString)) (keyword text : JSString)
    (options : SearchOptions) (htext : text ≠ []) :
    (options.useRegex = true →
      collectMatches ⟨compile, c1⟩ keyword text options
          = regexStrategy (compile keyword options.matchCase) text ∧
      collectMatches ⟨compile, c1⟩ keyword text options
          = collectMatches ⟨compile, c2⟩ keyword text options) ∧
    (options.useRegex = false → options.exactMatch = true →
      collectMatches ⟨compile, c1⟩ keyword text options
          = exactStrategy keyword text options.matchCase ∧
      collectMatches ⟨compile, c1⟩ keyword text options
          = collectMatches ⟨compile, c2⟩ keyword text options) ∧
    (options.useRegex = false → options.exactMatch = false →
      collectMatches ⟨compile, c1⟩ keyword text options
          = normalizedStrategy c1 keyword text options.matchCase) := by
  have htb : text.isEmpty = false := by
    cases text with
    | nil => exact absurd rfl htext
    | cons a t => rfl
  refine ⟨?_, ?_, ?_⟩
  · intro h1
    constructor <;> simp [collectMatches, htb, h1]
  · intro h1 h2
    constructor <;> simp [collectMatches, htb, h1, h2]
  · intro h1 h2
    simp [collectMatches, htb, h1, h2]

/-- Witness for C5 with the exact-literal options, keyword "a", text "ab",
and two different converter states. -/
theorem strategy_priority_witness :
    (optsExact.useRegex = true →
      collectMatches ⟨compileNone, none⟩ [97] [97, 98] optsExact
          = regexStrategy (compileNone [97] optsExact.matchCase) [97, 98] ∧
      collectMatches ⟨compileNone, none⟩ [97] [97, 98] optsExact
          = collectMatches ⟨compileNone, some (fun x => x)⟩ [97] [97, 98] optsExact) ∧
    (optsExact.useRegex = false → optsExact.exactMatch = true →
      collectMatches ⟨compileNone, none⟩ [97] [97, 98] optsExact
          = exactStrategy [97] [97, 98] optsExact.matchCase ∧
      collectMatches ⟨compileNone, none⟩ [97] [97, 98] optsExact
          = collectMatches ⟨compileNone, some (fun x => x)⟩ [97] [97, 98] optsExact) ∧
    (optsExact.useRegex = false → optsExact.exactMatch = false →
      collectMatches ⟨compileNone, none⟩ [97] [97, 98] optsExact
          = normalizedStrategy none [97] [97, 98] optsExact.matchCase) :=
  strategy_priority compileNone none (some (fun x => x)) [97] [97, 98] optsExact
    (by decide)

/-- Claim C9 evaluated at a failing input: with `wholeWord = true`, keyword
"b" and node text "abc", `collectMatches` still returns the span [1, 2),
which lies strictly inside the word "abc" (both neighbours are letters), and
the result is identical with `wholeWord = false`: no strategy consults
`wholeWord` before accepting a span. -/
theorem wholeWord_not_enforced :
    collectMatches envNone [98] [97, 98, 99] ⟨true, true, false, true⟩
        = some [((1 : Int), (2 : Int))] ∧
    collectMatches envNone [98] [97, 98, 99] ⟨true, false, false, true⟩
        = some [((1 : Int), (2 : Int))] := by
  constructor
  · decide
  · decide

/-- Claim C10: every match in the list returned by `performSearch` has at
least one client rectangle; matches anchored in text reporting no geometry
are filtered out of the returned match set before `performSearch` returns. -/
theorem performSearch_filters_invisible (env : SearchEnv) (doc : List TextNode)
    (keyword : JSString) (options : SearchOptions) (ms : List MatchRange)
    (h : performSearch env doc keyword options = some ms) :
    ∀ m ∈ ms, 0 < rangeRectCount doc m := by
  unfold performSearch at h
  by_cases ht : (trim keyword).isEmpty
  · simp only [ht, if_true] at h
    injection h with h
    subst h
    intro m hm
    cases hm
  · simp only [ht, if_false, Bool.false_eq_true] at h
    split at h
    · cases h
    · injection h with h
      subst h
      intro m hm
      rw [List.mem_filter] at hm
      exact of_decide_eq_true hm.2

/-- Witness for C10 at the two-node document `docTwoNodes`: the match in the
geometry-less first node is dropped, the one in the second node is kept. -/
theorem performSearch_filters_invisible_witness :
    performSearch envNone docTwoNodes [97] optsExact
        = some [((1 : Nat), ((0 : Int), (1 : Int)))] ∧
    ∀ m ∈ [((1 : Nat), ((0 : Int), (1 : Int)))], 0 < rangeRectCount docTwoNodes m :=
  ⟨by decide,
    performSearch_filters_invisible envNone docTwoNodes [97] optsExact
      [((1 : Nat), ((0 : Int), (1 : Int)))] (by decide)⟩

theorem runSearchStart_gen_of_some (st : Session) (k : JSString) (g : Nat)
    (oc : Option MatchRange) (h : (runSearchStart st k).2 = some (g, oc)) :
    g = st.searchGeneration + 1 := by
  unfold runSearchStart at h
  by_cases hk : (trim k).isEmpty
  · simp [hk] at h
  · simp only [hk, Bool.false_eq_true, if_false] at h
    injection h with h'
    injection h' with h1 h2
    exact h1.symm

theorem runSearchStart_gen (st : Session) (k : JSString) (h : trim k ≠ []) :
    (runSearchStart st k).1.searchGeneration = st.searchGeneration + 1 := by
  have hb : (trim k).isEmpty = false := by
    cases hk : trim k with
    | nil => exact absurd hk h
    | cons a t => rfl
  unfold runSearchStart
  simp [hb]

theorem runSearchComplete_stale (st : Session) (g : Nat) (a : Bool)
    (oc : Option MatchRange) (nm : List MatchRange)
    (h : g ≠ st.searchGeneration) : runSearchComplete st g a oc nm = st := by
  unfold runSearchComplete
  simp [h]

/-- Claim C3: a completed search batch is applied to the session state only
when its captured generation still equals the current generation counter;
in particular, when a second search starts before the first's asynchronous
work resolves, the first search's completion is discarded: whatever its
result set, the session state is left exactly as the second start left it. -/
theorem stale_generation_discarded (st0 : Session) (k1 k2 : JSString)
    (g1 : Nat) (oc0 oc : Option MatchRange) (a : Bool) (nm : List MatchRange)
    (h1 : (runSearchStart st0 k1).2 = some (g1, oc0))
    (h2 : trim k2 ≠ []) :
    g1 ≠ ((runSearchStart (runSearchStart st0 k1).1 k2).1).searchGeneration ∧
    runSearchComplete ((runSearchStart (runSearchStart st0 k1).1 k2).1) g1 a oc nm
      = (runSearchStart (runSearchStart st0 k1).1 k2).1 := by
  have hg1 : g1 = st0.searchGeneration + 1 :=
    runSearchStart_gen_of_some st0 k1 g1 oc0 h1
  have hk1 : trim k1 ≠ [] := by
    intro hnil
    have hb : (trim k1).isEmpty = true := by rw [hnil]; rfl
    unfold runSearchStart at h1
    simp [hb] at h1
  have hg1' : (runSearchStart st0 k1).1.searchGeneration = st0.searchGeneration + 1 :=
    runSearchStart_gen st0 k1 hk1
  have hg2 : ((runSearchStart (runSearchStart st0 k1).1 k2).1).searchGeneration
      = st0.searchGeneration + 2 := by
    rw [runSearchStart_gen (runSearchStart st0 k1).1 k2 h2, hg1']
  have hne : g1 ≠ ((runSearchStart (runSearchStart st0 k1).1 k2).1).searchGeneration := by
    rw [hg2, hg1]
    omega
  exact ⟨hne, runSearchComplete_stale _ g1 a oc nm hne⟩

/-- Witness for C3: from the idle session, two searches for "a" overlap; the
first search's completion with a non-empty result set changes nothing. -/
theorem stale_generation_discarded_witness :
    (1 : Nat) ≠ ((runSearchStart (runSearchStart sessEmpty [97]).1 [97]).1).searchGeneration ∧
    runSearchComplete ((runSearchStart (runSearchStart sessEmpty [97]).1 [97]).1)
        1 false none [(0, 0, 1)]
      = (runSearchStart (runSearchStart sessEmpty [97]).1 [97]).1 :=
  stale_generation_discarded sessEmpty [97] [97] 1 none none false [(0, 0, 1)]
    (by decide) (by decide)

/-- Counterexample to claim C4: `runSearch` clears the session state
synchronously at its start, so a search whose results are discarded as
stale does not leave the previous session state untouched. Starting from a
session holding one committed match, two overlapping searches leave
`matchList = []` after the first search's stale completion — the previous
match set is gone even though the first search's own full result set was
never committed. -/
theorem runSearch_clears_state_counterexample :
    (runSearchStart sessOne [97]).1.matchList = [] ∧
    (runSearchStart sessOne [97]).1.currentIndex = -1 ∧
    sessOne.matchList ≠ [] ∧
    runSearchComplete ((runSearchStart (runSearchStart sessOne [97]).1 [97]).1)
        1 false none [(0, 0, 1)]
      = ((runSearchStart (runSearchStart sessOne [97]).1 [97]).1) ∧
    ((runSearchStart (runSearchStart sessOne [97]).1 [97]).1).matchList = [] := by
  refine ⟨by decide, by decide, by decide, by decide, by decide⟩

theorem jsFindIndexAux_bounds (pred : MatchRange → Bool) :
    ∀ (l : List MatchRange) (k : Nat),
      jsFindIndexAux pred l k = -1 ∨
      ((k : Int) ≤ jsFindIndexAux pred l k ∧
        jsFindIndexAux pred l k < (k : Int) + l.length)
  | [], k => Or.inl rfl
  | x :: xs, k => by
    unfold jsFindIndexAux
    by_cases hp : pred x
    · simp only [hp, if_true]
      right
      constructor
      · exact le_refl _
      · simp only [List.length_cons]
        push_cast
        omega
    · simp only [hp, if_false, Bool.false_eq_true]
      rcases jsFindIndexAux_bounds pred xs (k + 1) with h | ⟨hl, hr⟩
      · exact Or.inl h
      · right
        simp only [List.length_cons]
        push_cast at hl hr ⊢
        omega

/-- Claim C4 as amended: `runSearch` clears the session state to
`([], -1)` synchronously at its start, before any asynchronous work; each
completion is then all-or-nothing — a stale completion leaves the state
exactly as it is at that moment, and an applied completion commits the full
new match set with a resolved index (a valid index into the new set when it
is non-empty, unchanged when it is empty). The state a stale completion
preserves is the cleared (or later-committed) one, not the pre-search
state. -/
theorem runSearch_commit_all_or_nothing (st : Session) (k : JSString)
    (g : Nat) (a : Bool) (oc : Option MatchRange) (nm : List MatchRange) :
    ((runSearchStart st k).1.matchList = [] ∧
      (runSearchStart st k).1.currentIndex = -1) ∧
    (runSearchComplete st g a oc nm = st ∨
      ((runSearchComplete st g a oc nm).matchList = nm ∧
       (runSearchComplete st g a oc nm).searchGeneration = st.searchGeneration ∧
       ((nm = [] ∧ (runSearchComplete st g a oc nm).currentIndex = st.currentIndex) ∨
        (nm ≠ [] ∧ 0 ≤ (runSearchComplete st g a oc nm).currentIndex ∧
          (runSearchComplete st g a oc nm).currentIndex < (nm.length : Int))))) := by
  constructor
  · unfold runSearchStart
    by_cases hk : (trim k).isEmpty <;> simp [hk]
  · by_cases hg : g ≠ st.searchGeneration
    · exact Or.inl (runSearchComplete_stale st g a oc nm hg)
    · right
      push_neg at hg
      refine ⟨?_, ?_, ?_⟩
      · unfold runSearchComplete
        by_cases hnm : 0 < nm.length <;> cases a <;> simp [hg, hnm]
      · unfold runSearchComplete
        by_cases hnm : 0 < nm.length <;> cases a <;> simp [hg, hnm]
      · by_cases hnm : 0 < nm.length
        · right
          have hne : nm ≠ [] := by
            cases nm with
            | nil => simp at hnm
            | cons x xs => exact List.cons_ne_nil x xs
          refine ⟨hne, ?_⟩
          unfold runSearchComplete
          cases a with
          | false =>
            simp only [hg, ne_eq, not_true_eq_false, if_false, hnm, if_true,
              Bool.false_eq_true]
            refine ⟨le_refl 0, by exact_mod_cast hnm⟩
          | true =>
            simp only [hg, ne_eq, not_true_eq_false, if_false, hnm, if_true]
            cases oc with
            | none =>
              simp only [neg_neg, ne_eq, not_true_eq_false, if_false,
                Bool.false_eq_true]
              refine ⟨le_refl 0, by exact_mod_cast hnm⟩
            | some r =>
              dsimp only
              unfold jsFindIndex
              rcases jsFindIndexAux_bounds (fun nr => nr == r) nm 0 with h | ⟨hl, hr⟩
              · rw [h]
                simp only [neg_neg, ne_eq, not_true_eq_false, if_false,
                  Bool.false_eq_true]
                refine ⟨le_refl 0, by exact_mod_cast hnm⟩
              · have hne' : jsFindIndexAux (fun nr => nr == r) nm 0 ≠ -1 := by
                  omega
                simp only [ne_eq, hne', not_false_iff, if_true]
                push_cast at hl hr
                exact ⟨by omega, by omega⟩
        · left
          have hz : nm = [] := by
            cases nm with
            | nil => rfl
            | cons x xs => simp at hnm
          refine ⟨hz, ?_⟩
          unfold runSearchComplete
          simp [hg, hnm]

theorem regexLoop_total (eng : RegexEngine) (text : JSString)
    (hmono : ∀ l i m, eng.execFrom text l = some (i, m) → l ≤ i)
    (hbound : ∀ l i m, eng.execFrom text l = some (i, m) →
      i + m.length ≤ text.length)
    (hpast : ∀ l, text.length < l → eng.execFrom text l = none) :
    ∀ (fuel lastIndex : Nat) (acc : List Span),
      text.length + 1 ≤ fuel + lastIndex →
      (∀ p ∈ acc, 0 ≤ p.1 ∧ p.1 < p.2 ∧ p.2 ≤ (text.length : Int)) →
      (regexLoop eng text fuel lastIndex acc).isSome = true ∧
      ∀ p ∈ (regexLoop eng text fuel lastIndex acc).getD [],
        0 ≤ p.1 ∧ p.1 < p.2 ∧ p.2 ≤ (text.length : Int) := by
  intro fuel
  induction fuel with
  | zero =>
    intro lastIndex acc hfuel hacc
    have hnone : eng.execFrom text lastIndex = none := hpast lastIndex (by omega)
    rw [regexLoop, hnone]
    refine ⟨rfl, ?_⟩
    intro p hp
    simp only [Option.getD_some] at hp
    exact hacc p (List.mem_reverse.mp hp)
  | succ f ih =>
    intro lastIndex acc hfuel hacc
    cases hexec : eng.execFrom text lastIndex with
    | none =>
      rw [regexLoop, hexec]
      refine ⟨rfl, ?_⟩
      intro p hp
      simp only [Option.getD_some] at hp
      exact hacc p (List.mem_reverse.mp hp)
    | some im =>
      obtain ⟨i, m⟩ := im
      have hmi := hmono lastIndex i m hexec
      have hbi := hbound lastIndex i m hexec
      rw [regexLoop, hexec]
      dsimp only
      by_cases hm : m.isEmpty
      · have hm0 : m.length = 0 := by
          cases m with
          | nil => rfl
          | cons x xs => cases hm
        simp only [hm, if_true, hm0, Nat.add_zero, beq_self_eq_true]
        exact ih (i + 1) acc (by omega) hacc
      · have hm1 : 1 ≤ m.length := by
          cases m with
          | nil => exact absurd rfl hm
          | cons x xs => simp
        simp only [hm, Bool.false_eq_true, if_false]
        refine ih (i + m.length) (((i : Int), ((i + m.length : Nat) : Int)) :: acc)
          (by omega) ?_
        intro p hp
        rcases List.mem_cons.mp hp with rfl | hp'
        · refine ⟨?_, ?_, ?_⟩
          · show (0 : Int) ≤ (i : Int)
            exact Int.ofNat_nonneg i
          · show (i : Int) < ((i + m.length : Nat) : Int)
            exact_mod_cast by omega
          · show ((i + m.length : Nat) : Int) ≤ (text.length : Int)
            exact_mod_cast hbi
        · exact hacc p hp'

/-- Claim C6: for every pattern whose compiled engine satisfies the
contract of JavaScript's global `exec` (a match starts at or after
`lastIndex`, fits inside the text, and the scan fails past its end — true
in particular of patterns matching zero length, such as `a*` on "bbb"), the
regex strategy of `collectMatches` terminates within its canonical fuel,
skipping zero-length matches by advancing the scan position by one, and
every returned span lies within the text. -/
theorem regex_scan_terminates_in_bounds (env : SearchEnv)
    (keyword text : JSString) (options : SearchOptions) (eng : RegexEngine)
    (hre : options.useRegex = true)
    (hc : env.compile keyword options.matchCase = some eng)
    (hmono : ∀ l i m, eng.execFrom text l = some (i, m) → l ≤ i)
    (hbound : ∀ l i m, eng.execFrom text l = some (i, m) →
      i + m.length ≤ text.length)
    (hpast : ∀ l, text.length < l → eng.execFrom text l = none) :
    (collectMatches env keyword text options).isSome = true ∧
    ∀ p ∈ (collectMatches env keyword text options).getD [],
      0 ≤ p.1 ∧ p.1 < p.2 ∧ p.2 ≤ (text.length : Int) := by
  unfold collectMatches
  by_cases ht : text.isEmpty
  · simp [ht]
  · simp only [ht, Bool.false_eq_true, if_false, hre, if_true, regexStrategy, hc]
    exact regexLoop_total eng text hmono hbound hpast (text.length + 1) 0 []
      (by omega) (by intro p hp; cases hp)

theorem execStar_mono (t : JSString) (l i : Nat) (m : JSString)
    (h : execStar t l = some (i, m)) : l ≤ i := by
  unfold execStar at h
  by_cases hcond : l ≤ t.length
  · rw [if_pos hcond] at h
    injection h with h'
    injection h' with h1 h2
    omega
  · rw [if_neg hcond] at h
    cases h

theorem execStar_bound (t : JSString) (l i : Nat) (m : JSString)
    (h : execStar t l = some (i, m)) : i + m.length ≤ t.length := by
  unfold execStar at h
  by_cases hcond : l ≤ t.length
  · rw [if_pos hcond] at h
    injection h with h'
    injection h' with h1 h2
    subst h1
    rw [← h2]
    simpa using hcond
  · rw [if_neg hcond] at h
    cases h

theorem execStar_past (t : JSString) (l : Nat) (h : t.length < l) :
    execStar t l = none := by
  unfold execStar
  rw [if_neg (by omega)]

/-- Witness for C6: a zero-length-matching engine (the behaviour of `a*`)
over the text "bbb" terminates and stays in bounds. -/
theorem regex_scan_terminates_in_bounds_witness :
    (collectMatches envStar [97, 42] [98, 98, 98] optsRegex).isSome = true ∧
    ∀ p ∈ (collectMatches envStar [97, 42] [98, 98, 98] optsRegex).getD [],
      0 ≤ p.1 ∧ p.1 < p.2 ∧ p.2 ≤ (([98, 98, 98] : JSString).length : Int) :=
  regex_scan_terminates_in_bounds envStar [97, 42] [98, 98, 98] optsRegex
    engStar rfl rfl
    (fun l i m h => execStar_mono [98, 98, 98] l i m h)
    (fun l i m h => execStar_bound [98, 98, 98] l i m h)
    (fun l h => execStar_past [98, 98, 98] l h)

end ChineseFind
